import Mathlib

/-!
Verification of the NoBack batch image-transformation pipeline.

The development shallowly embeds the two Python sources of the repository
(`noback.py`, version 1, and `Version 0002/noback.py`, version 2).  Pure
string manipulation (`pathlib.PurePath.suffix` / `.stem`), the recursive
directory traversal (`Path.rglob("*")`), the drop-payload collection, the
bounding-box crop (`PIL.Image.getbbox` with Pillow >= 10 alpha-only
semantics, `PIL.Image.crop`) and the sequential processing loops of both
versions are translated into executable Lean definitions.  Filesystem and
external-library effects (directory creation, image decoding, the rembg
transform) are abstracted into an explicit environment record.
-/

namespace NoBack

/-! ## Python string semantics: `PurePath.suffix`, `PurePath.stem`, `str.lower` -/

/-- Split a character list at its *last* `'.'`: returns the characters before
the dot and after the dot, or `none` when no dot occurs.  Mirrors
`name.rfind('.')` used by `pathlib`. -/
def lastDotSplit : List Char → Option (List Char × List Char)
  | [] => none
  | c :: rest =>
    match lastDotSplit rest with
    | some (b, a) => some (c :: b, a)
    | none => if c = '.' then some ([], rest) else none

/-- `pathlib.PurePath.suffix` of a file *name*: the extension including the
leading dot, or `""`.  Python returns `""` when the last dot is the first
character (hidden files) or the final character. -/
def pySuffix (s : String) : String :=
  match lastDotSplit s.data with
  | some (b, a) => if b ≠ [] ∧ a ≠ [] then String.mk ('.' :: a) else ""
  | none => ""

/-- `pathlib.PurePath.stem` of a file *name*: the name with `pySuffix`
removed. -/
def pyStem (s : String) : String :=
  match lastDotSplit s.data with
  | some (b, a) => if b ≠ [] ∧ a ≠ [] then String.mk b else s
  | none => s

/-- ASCII `str.lower` (the supported extensions are all ASCII). -/
def lowerStr (s : String) : String :=
  String.mk (s.data.map Char.toLower)

/-- `SUPPORTED_EXTS` from both sources. -/
def SUPPORTED_EXTS : List String :=
  [".png", ".jpg", ".jpeg", ".webp", ".bmp", ".tiff", ".tif"]

/-- `p.suffix.lower() in SUPPORTED_EXTS`, applied to a file name. -/
def supportedName (name : String) : Bool :=
  SUPPORTED_EXTS.contains (lowerStr (pySuffix name))

/-- A filesystem path, as its list of components. -/
abbrev FsPath := List String

/-- The final component of a path (`Path.name`). -/
def lastName (p : FsPath) : String := p.getLastD ""

/-- Output file name derived from an input file *name*:
`f"{in_path.stem}_nobg.png"` (both sources). -/
def outputNameOfName (name : String) : String :=
  pyStem name ++ "_nobg.png"

/-- Output file name derived from an input path. -/
def outputName (p : FsPath) : String := outputNameOfName (lastName p)

/-! ## Images: alpha channel, `getbbox`, `crop`

An `Img` is an RGBA canvas abstracted to its alpha channel, which is all
the pipeline inspects.  `getbbox` mirrors `PIL.Image.getbbox()` on an RGBA
image under Pillow >= 10 (alpha-only by default): the bounding box of the
pixels whose alpha is non-zero, or `None` when every pixel is fully
transparent.  `crop` mirrors `PIL.Image.crop(box)`: the result always has
size `(right - left, lower - upper)`. -/

structure Img where
  w : Nat
  h : Nat
  alpha : Nat → Nat → Nat

structure BBox where
  l : Nat
  t : Nat
  r : Nat
  b : Nat
  deriving DecidableEq

/-- Coordinates of the non-fully-transparent pixels, row-major. -/
def coordsList (im : Img) : List (Nat × Nat) :=
  (List.range im.h).bind (fun y =>
    (List.range im.w).filterMap (fun x =>
      if im.alpha x y ≠ 0 then some (x, y) else none))

/-- `out.getbbox()` (Pillow >= 10, RGBA: alpha channel only). -/
def getbbox (im : Img) : Option BBox :=
  match coordsList im with
  | [] => none
  | c :: cs =>
    some ⟨cs.foldl (fun a z => min a z.1) c.1,
          cs.foldl (fun a z => min a z.2) c.2,
          cs.foldl (fun a z => max a z.1) c.1 + 1,
          cs.foldl (fun a z => max a z.2) c.2 + 1⟩

/-- `out.crop(box)`: size is always `(r - l, b - t)`, pixels outside the
source canvas read as zero. -/
def cropImg (im : Img) (bb : BBox) : Img :=
  ⟨bb.r - bb.l, bb.b - bb.t,
   fun x y => if bb.l + x < im.w ∧ bb.t + y < im.h then
     im.alpha (bb.l + x) (bb.t + y) else 0⟩

/-- The post-transform image actually written.  `crop = true` is version 2
(`bbox = out.getbbox(); if bbox: out = out.crop(bbox)`); `crop = false` is
version 1, which writes the transform output unchanged. -/
def pipelineOut (crop : Bool) (im : Img) : Img :=
  if crop then
    match getbbox im with
    | some bb => cropImg im bb
    | none => im
  else im

def imgDims (im : Img) : Nat × Nat := (im.w, im.h)

/-- The non-transparent pixels of `im` fill exactly the rectangle `R`
(which is non-degenerate and lies inside the canvas). -/
@[reducible] def occupiesRect (im : Img) (R : BBox) : Prop :=
  R.l < R.r ∧ R.t < R.b ∧ R.r ≤ im.w ∧ R.b ≤ im.h ∧
  ∀ x < im.w, ∀ y < im.h,
    (im.alpha x y ≠ 0 ↔ (R.l ≤ x ∧ x < R.r ∧ R.t ≤ y ∧ y < R.b))

/-! ## Filesystem model and `iter_images_in_dir`

A directory's contents are modelled as a tree of entries.  `Path.rglob("*")`
(pattern `**/*`) lists, for every directory in depth-first pre-order
(starting with the root itself), all of that directory's children — files
*and* directories alike.  `iter_images_in_dir` keeps the paths whose
lower-cased suffix is a supported extension; the source performs no
`is_file()` check. -/

inductive Entry where
  | file (name : String)
  | dir (name : String) (children : List Entry)

def entryName : Entry → String
  | .file n => n
  | .dir n _ => n

def isFileE : Entry → Bool
  | .file _ => true
  | .dir _ _ => false

mutual

/-- Directories strictly below one entry, depth-first pre-order, paired with
their children; `pre` is the path of the surrounding directory. -/
def entryDirs (pre : FsPath) : Entry → List (FsPath × List Entry)
  | .file _ => []
  | .dir n cs => (pre ++ [n], cs) :: entriesDirs (pre ++ [n]) cs

/-- Directories strictly below a list of sibling entries. -/
def entriesDirs (pre : FsPath) : List Entry → List (FsPath × List Entry)
  | [] => []
  | e :: es => entryDirs pre e ++ entriesDirs pre es

end

/-- All directories reached from a root directory at path `pre` with
children `cs`, root first, depth-first pre-order. -/
def dirsList (pre : FsPath) (cs : List Entry) : List (FsPath × List Entry) :=
  (pre, cs) :: entriesDirs pre cs

/-- `folder.rglob("*")`: for each directory in `dirsList` order, the paths
of all its children. -/
def rglobAt (pre : FsPath) (cs : List Entry) : List FsPath :=
  (dirsList pre cs).bind (fun pc => pc.2.map (fun e => pc.1 ++ [entryName e]))

/-- `iter_images_in_dir` (identical in both sources): filter `rglob("*")`
by `p.suffix.lower() in SUPPORTED_EXTS`. -/
def iter_images_in_dir (pre : FsPath) (cs : List Entry) : List FsPath :=
  (rglobAt pre cs).filter (fun p => supportedName (lastName p))

/-- The traversal seen with entry kinds: path, name and an is-regular-file
flag for every entry visited by `rglob("*")`, in traversal order. -/
def travEntries (pre : FsPath) (cs : List Entry) :
    List (FsPath × String × Bool) :=
  (dirsList pre cs).bind (fun pc =>
    pc.2.map (fun e => (pc.1 ++ [entryName e], entryName e, isFileE e)))

/-- Modelled from the spec: `collect_from_folder` as §4.1 words it — only
*regular files* with a supported extension are kept. -/
def specCollectFromFolder (pre : FsPath) (cs : List Entry) : List FsPath :=
  (travEntries pre cs).filterMap (fun z =>
    if z.2.2 && supportedName z.2.1 then some z.1 else none)

/-- What the code actually keeps: every traversed entry — file or
directory — whose extension matches. -/
def extMatchedEntries (pre : FsPath) (cs : List Entry) : List FsPath :=
  (travEntries pre cs).filterMap (fun z =>
    if supportedName z.2.1 then some z.1 else none)

/-! ## The drop payload collector (`on_drop`, identical logic in both
versions) -/

/-- One entry of a drop payload, with its filesystem status at drop time:
an existing regular file, an existing directory (with its contents), or
anything else (`broken`: the path is neither a file nor a directory). -/
inductive DropItem where
  | file (path : FsPath)
  | dir (path : FsPath) (children : List Entry)
  | broken (path : FsPath)

/-- Expansion of a single payload entry, as the spec describes
`collect_from_drop`. -/
def expandDropItem : DropItem → List FsPath
  | .file p => if supportedName (lastName p) then [p] else []
  | .dir p cs => iter_images_in_dir p cs
  | .broken _ => []

/-- One iteration of the `on_drop` loop: `if p.is_file() and ... :
all_files.append(p)` / `elif p.is_dir(): all_files.extend(...)`. -/
def dropStep (acc : List FsPath) : DropItem → List FsPath
  | .file p => if supportedName (lastName p) then acc ++ [p] else acc
  | .dir p cs => acc ++ iter_images_in_dir p cs
  | .broken _ => acc

/-- The `all_files` accumulation loop of `on_drop`. -/
def on_drop_collect (items : List DropItem) : List FsPath :=
  items.foldl dropStep []

/-- The state update of `on_drop`: `if all_files: self.input_paths =
all_files` — an empty expansion leaves the previous selection in place. -/
def on_drop_state (st : List FsPath) (items : List DropItem) : List FsPath :=
  let all := on_drop_collect items
  if all.isEmpty then st else all

/-! ## The batch run

Filesystem and external-library effects are abstracted into an environment:
whether `out_dir.mkdir(parents=True, exist_ok=True)` succeeds, what
`Image.open(...).convert("RGBA")` returns per path, and what `rembg.remove`
returns per image.  `process_image` performs, in source order: mkdir, open,
remove, (version 2 only) bbox-crop, and yields the saved file's name and
contents.  An exception anywhere surfaces as `.error`. -/

structure Env where
  mkdirOk : Bool
  load : FsPath → Except String Img
  removeBg : Img → Except String Img

/-- `process_image(in_path, out_dir)`; `crop = true` is version 2. -/
def process_image (env : Env) (crop : Bool) (f : FsPath) :
    Except String (String × Img) :=
  if env.mkdirOk then
    match env.load f with
    | .error e => .error e
    | .ok im =>
      match env.removeBg im with
      | .error e => .error e
      | .ok out => .ok (outputName f, pipelineOut crop out)
  else .error "mkdir failed"

/-- The per-item outcome observed by the log: the output file's name on
success, the error text on failure. -/
def itemOut (env : Env) (crop : Bool) (f : FsPath) : Except String String :=
  (process_image env crop f).map Prod.fst

/-- Observable events of one run: a per-item result line, or a progress
update carrying the displayed fraction. -/
inductive Ev where
  | item (f : FsPath) (r : Except String String)
  | prog (v : ℚ)

/-- The processing loop body: for each file, one result event then one
progress event with fraction `(index + 1) / n` (`enumerate(..., start=1)`).
`i` is the number of items already attempted. -/
def runEvents (env : Env) (crop : Bool) (n : Nat) : Nat → List FsPath → List Ev
  | _, [] => []
  | i, f :: fs =>
    .item f (itemOut env crop f) :: .prog (((i + 1 : Nat) : ℚ) / (n : ℚ)) ::
      runEvents env crop n (i + 1) fs

/-- Version 1 `App.process`: the progress bar is reset to 0 (with maximum
`N`), then the loop runs; there is no extra update after the loop. -/
def runV1 (env : Env) (ws : List FsPath) : List Ev :=
  .prog 0 :: runEvents env false ws.length 0 ws

/-- Version 2 `NoBackApp._process_all`: `set_progress(0.0)`, the loop, then
one more `set_progress(1.0)` after the loop. -/
def runV2 (env : Env) (ws : List FsPath) : List Ev :=
  .prog 0 :: runEvents env true ws.length 0 ws ++ [.prog 1]

/-- The per-item result lines of a run, in order. -/
def resultTrace (evs : List Ev) : List (FsPath × Except String String) :=
  evs.filterMap (fun e => match e with
    | .item f r => some (f, r)
    | .prog _ => none)

/-- The progress values of a run, in order. -/
def progressTrace (evs : List Ev) : List ℚ :=
  evs.filterMap (fun e => match e with
    | .prog v => some v
    | .item _ _ => none)

/-- `out.save(out_path)`: writing a file replaces any existing file of the
same name. -/
def insertOverwrite (k : String) (v : Img) (d : List (String × Img)) :
    List (String × Img) :=
  (k, v) :: d.filter (fun e => e.1 != k)

/-- The output directory's contents after a run: each successful item saves
its output under its derived name, failures write nothing. -/
def runDir (env : Env) (crop : Bool) (ws : List FsPath) :
    List (String × Img) :=
  ws.foldl (fun d f =>
    match process_image env crop f with
    | .ok z => insertOverwrite z.1 z.2 d
    | .error _ => d) []

/-- The output names of the successful items of a run, in order, with
multiplicity. -/
def successOutputs (env : Env) (crop : Bool) (ws : List FsPath) :
    List String :=
  ws.filterMap (fun f =>
    match process_image env crop f with
    | .ok z => some z.1
    | .error _ => none)

/-- The in-loop progress values for a worklist of length `n`:
`(i + 1) / n` after the `i`-th item (0-based). -/
def inLoopProg (n : Nat) : List ℚ :=
  (List.range n).map (fun j => ((j + 1 : Nat) : ℚ) / (n : ℚ))

/-! ## Concrete data used by counterexamples and witnesses -/

/-- A 3×3 image whose only non-transparent pixel is the centre. -/
def cIm : Img := ⟨3, 3, fun x y => if x = 1 ∧ y = 1 then 255 else 0⟩

/-- A fully transparent 2×2 image. -/
def cIm0 : Img := ⟨2, 2, fun _ _ => 0⟩

/-- An environment where every step succeeds. -/
def cEnvOk : Env := ⟨true, fun _ => .ok cIm, fun im => .ok im⟩

/-- An environment where creating the output directory fails. -/
def cEnvBad : Env := ⟨false, fun _ => .ok cIm, fun im => .ok im⟩

/-- An environment where decoding `b.png` raises and everything else
succeeds. -/
def cEnvMid : Env :=
  ⟨true, fun f => if f = ["b.png"] then .error "decode error" else .ok cIm,
   fun im => .ok im⟩

/-- The directory of the spec's extension-filtering example. -/
def exampleTree : List Entry :=
  [.file "a.png", .file "b.txt", .file "c.JPG", .dir "sub" [.file "d.webp"]]

/-- A directory containing one empty *subdirectory* named `d.png`. -/
def cexTree : List Entry := [.dir "d.png" []]

/-! ## General list lemmas -/

lemma filterMap_bind {α β γ : Type _} (l : List α) (g : α → List β)
    (f : β → Option γ) :
    (l.bind g).filterMap f = l.bind (fun a => (g a).filterMap f) := by
  induction l with
  | nil => rfl
  | cons a l ih => simp [List.cons_bind, List.filterMap_append, ih]

lemma filter_bind {α β : Type _} (l : List α) (g : α → List β) (p : β → Bool) :
    (l.bind g).filter p = l.bind (fun a => (g a).filter p) := by
  induction l with
  | nil => rfl
  | cons a l ih => simp [List.cons_bind, List.filter_append, ih]

lemma filterMap_if_map {α β : Type _} (P : α → Bool) (f : α → β) :
    ∀ l : List α,
      (l.filterMap fun a => if P a then some (f a) else none)
        = (l.filter P).map f
  | [] => rfl
  | a :: l => by
    by_cases h : P a <;>
      simp [List.filterMap_cons, List.filter_cons, h, filterMap_if_map P f l]

lemma foldl_min_eq {α : Type _} (f : α → Nat) (m : Nat) :
    ∀ (cs : List α) (a : Nat), m ≤ a → (∀ z ∈ cs, m ≤ f z) →
      (a = m ∨ ∃ z ∈ cs, f z = m) →
      cs.foldl (fun acc z => min acc (f z)) a = m := by
  intro cs
  induction cs with
  | nil =>
    intro a ha _ hat
    rcases hat with h | ⟨z, hz, _⟩
    · exact h
    · cases hz
  | cons c cs ih =>
    intro a ha hlb hat
    apply ih (min a (f c)) (le_min ha (hlb c (List.mem_cons_self c cs)))
      (fun z hz => hlb z (List.mem_cons_of_mem c hz))
    rcases hat with h | ⟨z, hz, hfz⟩
    · subst h
      exact Or.inl (min_eq_left (hlb c (List.mem_cons_self c cs)))
    · rcases List.mem_cons.mp hz with h | h
      · subst h
        rw [hfz]
        exact Or.inl (min_eq_right ha)
      · exact Or.inr ⟨z, h, hfz⟩

lemma foldl_max_eq {α : Type _} (f : α → Nat) (m : Nat) :
    ∀ (cs : List α) (a : Nat), a ≤ m → (∀ z ∈ cs, f z ≤ m) →
      (a = m ∨ ∃ z ∈ cs, f z = m) →
      cs.foldl (fun acc z => max acc (f z)) a = m := by
  intro cs
  induction cs with
  | nil =>
    intro a ha _ hat
    rcases hat with h | ⟨z, hz, _⟩
    · exact h
    · cases hz
  | cons c cs ih =>
    intro a ha hlb hat
    apply ih (max a (f c)) (max_le ha (hlb c (List.mem_cons_self c cs)))
      (fun z hz => hlb z (List.mem_cons_of_mem c hz))
    rcases hat with h | ⟨z, hz, hfz⟩
    · subst h
      exact Or.inl (max_eq_left (hlb c (List.mem_cons_self c cs)))
    · rcases List.mem_cons.mp hz with h | h
      · subst h
        rw [hfz]
        exact Or.inl (max_eq_right ha)
      · exact Or.inr ⟨z, h, hfz⟩

lemma dedup_length_lt {α : Type _} [DecidableEq α] {l : List α}
    (h : ¬ l.Nodup) : l.dedup.length < l.length := by
  rcases lt_or_eq_of_le (List.dedup_sublist l).length_le with hlt | heq
  · exact hlt
  · exact absurd (List.dedup_eq_self.mp ((List.dedup_sublist l).eq_of_length heq)) h

/-! ## Trace characterizations of the two run loops -/

lemma resultTrace_cons_prog (v : ℚ) (evs : List Ev) :
    resultTrace (.prog v :: evs) = resultTrace evs := rfl

lemma resultTrace_append (a b : List Ev) :
    resultTrace (a ++ b) = resultTrace a ++ resultTrace b :=
  List.filterMap_append a b _

lemma progressTrace_cons_prog (v : ℚ) (evs : List Ev) :
    progressTrace (.prog v :: evs) = v :: progressTrace evs := rfl

lemma progressTrace_append (a b : List Ev) :
    progressTrace (a ++ b) = progressTrace a ++ progressTrace b :=
  List.filterMap_append a b _

lemma resultTrace_runEvents (env : Env) (crop : Bool) (n : Nat) :
    ∀ (ws : List FsPath) (i : Nat),
      resultTrace (runEvents env crop n i ws)
        = ws.map (fun f => (f, itemOut env crop f)) := by
  intro ws
  induction ws with
  | nil => intro i; rfl
  | cons f fs ih =>
    intro i
    simp only [runEvents, resultTrace, List.filterMap_cons, List.map_cons]
    exact congrArg _ (ih (i + 1))

lemma progressTrace_runEvents (env : Env) (crop : Bool) (n : Nat) :
    ∀ (ws : List FsPath) (i : Nat),
      progressTrace (runEvents env crop n i ws)
        = (List.range ws.length).map
            (fun j => ((i + j + 1 : Nat) : ℚ) / (n : ℚ)) := by
  intro ws
  induction ws with
  | nil => intro i; rfl
  | cons f fs ih =>
    intro i
    have hpeel : progressTrace (runEvents env crop n i (f :: fs))
        = (((i + 1 : Nat) : ℚ) / (n : ℚ))
            :: progressTrace (runEvents env crop n (i + 1) fs) := rfl
    rw [hpeel, ih (i + 1), List.length_cons, List.range_succ_eq_map,
      List.map_cons, List.map_map]
    congr 1
    apply List.map_congr_left
    intro j _
    simp only [Function.comp]
    rw [show i + 1 + j + 1 = i + (j + 1) + 1 from by omega]

lemma progressTrace_run0 (env : Env) (crop : Bool) (ws : List FsPath) :
    progressTrace (runEvents env crop ws.length 0 ws)
      = inLoopProg ws.length := by
  rw [progressTrace_runEvents]
  unfold inLoopProg
  simp [Nat.zero_add]

lemma progressTrace_runV1 (env : Env) (ws : List FsPath) :
    progressTrace (runV1 env ws) = 0 :: inLoopProg ws.length := by
  rw [runV1, progressTrace_cons_prog, progressTrace_run0]

lemma progressTrace_runV2 (env : Env) (ws : List FsPath) :
    progressTrace (runV2 env ws) = (0 :: inLoopProg ws.length) ++ [1] := by
  rw [runV2, progressTrace_append, progressTrace_cons_prog, progressTrace_run0]
  rfl

lemma resultTrace_runV1 (env : Env) (ws : List FsPath) :
    resultTrace (runV1 env ws) = ws.map (fun f => (f, itemOut env false f)) := by
  rw [runV1, resultTrace_cons_prog, resultTrace_runEvents]

lemma resultTrace_runV2 (env : Env) (ws : List FsPath) :
    resultTrace (runV2 env ws) = ws.map (fun f => (f, itemOut env true f)) := by
  rw [runV2, resultTrace_append, resultTrace_cons_prog, resultTrace_runEvents]
  simp [resultTrace]

lemma pairwise_inLoopProg (n : Nat) :
    List.Pairwise (· < ·) (inLoopProg n) := by
  cases n with
  | zero => simp [inLoopProg]
  | succ m =>
    unfold inLoopProg
    apply List.Pairwise.map _ _ (List.pairwise_lt_range _)
    intro a b hab
    have hn : (0 : ℚ) < ((m + 1 : Nat) : ℚ) :=
      Nat.cast_pos.mpr (Nat.succ_pos m)
    rw [div_lt_div_iff_of_pos_right hn]
    exact_mod_cast Nat.succ_lt_succ hab

lemma getLast_inLoopProg {n : Nat} (hn : n ≠ 0) :
    (inLoopProg n).getLast? = some 1 := by
  obtain ⟨m, rfl⟩ := Nat.exists_eq_succ_of_ne_zero hn
  unfold inLoopProg
  rw [List.range_succ, List.map_append, List.map_singleton,
    List.getLast?_concat]
  congr 1
  exact div_self (Nat.cast_ne_zero.mpr (Nat.succ_ne_zero m))

/-! ## `getbbox` characterization -/

lemma mem_coordsList {im : Img} {z : Nat × Nat} :
    z ∈ coordsList im ↔ z.1 < im.w ∧ z.2 < im.h ∧ im.alpha z.1 z.2 ≠ 0 := by
  obtain ⟨x, y⟩ := z
  simp only [coordsList, List.mem_bind, List.mem_filterMap, List.mem_range]
  constructor
  · rintro ⟨y', hy', x', hx', hxy⟩
    by_cases h : im.alpha x' y' ≠ 0
    · rw [if_pos h] at hxy
      obtain ⟨rfl, rfl⟩ := Prod.mk.injEq .. ▸ Option.some.injEq .. ▸ hxy
      exact ⟨hx', hy', h⟩
    · rw [if_neg h] at hxy
      cases hxy
  · rintro ⟨hx, hy, ha⟩
    exact ⟨y, hy, x, hx, by rw [if_pos ha]⟩

lemma getbbox_of_occupies {im : Img} {R : BBox} (h : occupiesRect im R) :
    getbbox im = some R := by
  obtain ⟨Rl, Rt, Rr, Rb⟩ := R
  obtain ⟨hlr, htb, hrw, hbh, hiff⟩ := h
  dsimp only at hlr htb hrw hbh hiff
  have hltmem : ((Rl, Rt) : Nat × Nat) ∈ coordsList im := by
    rw [mem_coordsList]
    exact ⟨by omega, by omega,
      (hiff Rl (by omega) Rt (by omega)).mpr ⟨le_refl _, hlr, le_refl _, htb⟩⟩
  have hrbmem : ((Rr - 1, Rb - 1) : Nat × Nat) ∈ coordsList im := by
    rw [mem_coordsList]
    exact ⟨by omega, by omega,
      (hiff (Rr - 1) (by omega) (Rb - 1) (by omega)).mpr
        ⟨by omega, by omega, by omega, by omega⟩⟩
  have hbound : ∀ z ∈ coordsList im,
      Rl ≤ z.1 ∧ z.1 < Rr ∧ Rt ≤ z.2 ∧ z.2 < Rb := by
    intro z hz
    rw [mem_coordsList] at hz
    exact (hiff z.1 hz.1 z.2 hz.2.1).mp hz.2.2
  unfold getbbox
  cases hc : coordsList im with
  | nil => rw [hc] at hltmem; cases hltmem
  | cons c cs =>
    rw [hc] at hltmem hrbmem hbound
    have h1 : cs.foldl (fun a z => min a z.1) c.1 = Rl := by
      apply foldl_min_eq (fun z => z.1) Rl cs c.1 (hbound c (List.mem_cons_self c cs)).1
        (fun z hz => (hbound z (List.mem_cons_of_mem c hz)).1)
      rcases List.mem_cons.mp hltmem with hh | hh
      · exact Or.inl (by rw [← hh])
      · exact Or.inr ⟨(Rl, Rt), hh, rfl⟩
    have h2 : cs.foldl (fun a z => min a z.2) c.2 = Rt := by
      apply foldl_min_eq (fun z => z.2) Rt cs c.2 (hbound c (List.mem_cons_self c cs)).2.2.1
        (fun z hz => (hbound z (List.mem_cons_of_mem c hz)).2.2.1)
      rcases List.mem_cons.mp hltmem with hh | hh
      · exact Or.inl (by rw [← hh])
      · exact Or.inr ⟨(Rl, Rt), hh, rfl⟩
    have h3 : cs.foldl (fun a z => max a z.1) c.1 = Rr - 1 := by
      apply foldl_max_eq (fun z => z.1) (Rr - 1) cs c.1
        (by have := (hbound c (List.mem_cons_self c cs)).2.1; omega)
        (fun z hz => by
          have := (hbound z (List.mem_cons_of_mem c hz)).2.1
          show z.1 ≤ Rr - 1
          omega)
      rcases List.mem_cons.mp hrbmem with hh | hh
      · exact Or.inl (by rw [← hh])
      · exact Or.inr ⟨(Rr - 1, Rb - 1), hh, rfl⟩
    have h4 : cs.foldl (fun a z => max a z.2) c.2 = Rb - 1 := by
      apply foldl_max_eq (fun z => z.2) (Rb - 1) cs c.2
        (by have := (hbound c (List.mem_cons_self c cs)).2.2.2; omega)
        (fun z hz => by
          have := (hbound z (List.mem_cons_of_mem c hz)).2.2.2
          show z.2 ≤ Rb - 1
          omega)
      rcases List.mem_cons.mp hrbmem with hh | hh
      · exact Or.inl (by rw [← hh])
      · exact Or.inr ⟨(Rr - 1, Rb - 1), hh, rfl⟩
    simp only [h1, h2, h3, h4]
    congr 2 <;> omega

lemma getbbox_of_transparent {im : Img}
    (h : ∀ x < im.w, ∀ y < im.h, im.alpha x y = 0) :
    getbbox im = none := by
  have hc : coordsList im = [] := by
    rw [List.eq_nil_iff_forall_not_mem]
    intro z hz
    rw [mem_coordsList] at hz
    exact hz.2.2 (h z.1 hz.1 z.2 hz.2.1)
  unfold getbbox
  rw [hc]

/-! ## Output-directory lemmas -/

lemma process_image_ok_name {env : Env} {crop : Bool} {f : FsPath}
    {nm : String} {img : Img}
    (h : process_image env crop f = .ok (nm, img)) : nm = outputName f := by
  unfold process_image at h
  split at h
  · split at h
    · exact Except.noConfusion h
    · split at h
      · exact Except.noConfusion h
      · injection h with h1
        exact (congrArg Prod.fst h1).symm
  · exact Except.noConfusion h

lemma runDir_append_ok (env : Env) (crop : Bool) (ws : List FsPath)
    {q : FsPath} {nm : String} {img : Img}
    (hq : process_image env crop q = .ok (nm, img)) :
    List.lookup nm (runDir env crop (ws ++ [q])) = some img := by
  unfold runDir
  rw [List.foldl_append]
  simp [hq, insertOverwrite, List.lookup]

/-! ## Collector lemmas -/

lemma bind_cons_eq {α β : Type _} (a : α) (l : List α) (f : α → List β) :
    (a :: l).bind f = f a ++ l.bind f := rfl

lemma on_drop_eq_bind (items : List DropItem) :
    on_drop_collect items = items.bind expandDropItem := by
  suffices h : ∀ acc, items.foldl dropStep acc = acc ++ items.bind expandDropItem by
    simpa using h []
  induction items with
  | nil => intro acc; simp
  | cons it items ih =>
    intro acc
    rw [List.foldl_cons, bind_cons_eq, ih, ← List.append_assoc]
    congr 1
    cases it with
    | file p =>
      by_cases h : supportedName (lastName p) <;>
        simp [dropStep, expandDropItem, h]
    | dir p cs => rfl
    | broken p => simp [dropStep, expandDropItem]

lemma count_on_drop (items : List DropItem) (p : FsPath) :
    (on_drop_collect items).count p
      = (items.map (fun it => (expandDropItem it).count p)).sum := by
  rw [on_drop_eq_bind]
  induction items with
  | nil => rfl
  | cons it items ih =>
    rw [bind_cons_eq, List.count_append, List.map_cons, List.sum_cons, ih]

lemma lastName_concat (p1 : FsPath) (s : String) :
    lastName (p1 ++ [s]) = s := by
  simp [lastName, List.getLastD_eq_getLast?, List.getLast?_concat]

lemma iter_eq_extMatched (pre : FsPath) (cs : List Entry) :
    iter_images_in_dir pre cs = extMatchedEntries pre cs := by
  unfold iter_images_in_dir extMatchedEntries rglobAt travEntries
  rw [filter_bind, filterMap_bind]
  apply congrArg
  funext pc
  induction pc.2 with
  | nil => rfl
  | cons e l ih =>
    have hl : lastName (pc.1 ++ [entryName e]) = entryName e :=
      lastName_concat pc.1 (entryName e)
    by_cases h : supportedName (entryName e) <;>
      simp [List.filter_cons, List.filterMap_cons, hl, h, ih]

/-! ## Run-termination lemmas -/

lemma getLast?_cons_some {α : Type _} (a : α) {l : List α} {x : α}
    (h : l.getLast? = some x) : (a :: l).getLast? = some x := by
  cases l with
  | nil => cases h
  | cons b m => rw [List.getLast?_cons_cons]; exact h

lemma progressV1_last (env : Env) {ws : List FsPath} (hne : ws ≠ []) :
    (progressTrace (runV1 env ws)).getLast? = some 1 := by
  have hn : ws.length ≠ 0 := fun h => hne (List.length_eq_zero.mp h)
  rw [progressTrace_runV1]
  exact getLast?_cons_some _ (getLast_inLoopProg hn)

lemma progressV2_last (env : Env) (ws : List FsPath) :
    (progressTrace (runV2 env ws)).getLast? = some 1 := by
  rw [progressTrace_runV2]
  exact List.getLast?_concat _

/-! ## Python `stem` on a name of the form `base.ext` -/

lemma lastDotSplit_none {l : List Char} (h : '.' ∉ l) :
    lastDotSplit l = none := by
  induction l with
  | nil => rfl
  | cons c l ih =>
    have h1 : '.' ∉ l := fun hm => h (List.mem_cons_of_mem c hm)
    have h2 : ¬ (c = '.') := fun hc => h (hc ▸ List.mem_cons_self c l)
    simp [lastDotSplit, ih h1, h2]

lemma lastDotSplit_append (b r : List Char) (h : '.' ∉ r) :
    lastDotSplit (b ++ '.' :: r) = some (b, r) := by
  induction b with
  | nil => simp [lastDotSplit, lastDotSplit_none h]
  | cons c b ih => simp [lastDotSplit, ih]

lemma pyStem_base_ext (base ext : String) (hb : base.data ≠ [])
    (he : ext.data ≠ []) (hdot : '.' ∉ ext.data) :
    pyStem (base ++ "." ++ ext) = base := by
  have hdata : (base ++ "." ++ ext).data = base.data ++ '.' :: ext.data := by
    rw [String.data_append, String.data_append, List.append_assoc]
    rfl
  simp only [pyStem, hdata, lastDotSplit_append base.data ext.data hdot]
  rw [if_pos ⟨hb, he⟩]

/-! ## Further concrete data for witnesses -/

/-- The bounding rectangle of `cIm`'s single opaque pixel. -/
def cR : BBox := ⟨1, 1, 2, 2⟩

/-- A previously selected worklist. -/
def cSt : List FsPath := [["x.png"]]

/-- A drop payload with no eligible file: a broken path and an unsupported
file. -/
def cItems9 : List DropItem := [.broken ["gone"], .file ["b.txt"]]

/-- A three-item worklist whose middle item fails to decode under
`cEnvMid`. -/
def cWs3 : List FsPath := [["a.png"], ["b.png"], ["c.png"]]

/-! ## Claims -/

/-- Claim C1, as stated, is false: when creating the output directory
fails, the run is *not* aborted before any item is attempted and the error
*is* converted to per-item failures.  Concretely, with a failing `mkdir`
and a two-item worklist, the version-1 run still produces one failure
result per item (two results, not zero). -/
theorem claim1_cex :
    resultTrace (runV1 cEnvBad [["a.png"], ["b.png"]])
      = [(["a.png"], Except.error "mkdir failed"),
         (["b.png"], Except.error "mkdir failed")] ∧
    (resultTrace (runV1 cEnvBad [["a.png"], ["b.png"]])).length ≠ 0 :=
  ⟨rfl, by decide⟩

/-- Claim C1, amended: `mkdir` is attempted inside each item's
`process_image` call, so when directory creation fails every item is still
attempted and recorded as a per-item failure result; the run completes all
items (progress still ends at 1) and nothing is thrown past the run
boundary, in both versions. -/
theorem claim1_amended (env : Env) (ws : List FsPath)
    (hmk : env.mkdirOk = false) (hne : ws ≠ []) :
    resultTrace (runV1 env ws)
      = ws.map (fun f => (f, Except.error "mkdir failed")) ∧
    resultTrace (runV2 env ws)
      = ws.map (fun f => (f, Except.error "mkdir failed")) ∧
    (progressTrace (runV1 env ws)).getLast? = some 1 ∧
    (progressTrace (runV2 env ws)).getLast? = some 1 := by
  have hio : ∀ (crop : Bool) (f : FsPath),
      itemOut env crop f = Except.error "mkdir failed" := by
    intro crop f
    unfold itemOut process_image
    rw [hmk]
    rfl
  refine ⟨?_, ?_, progressV1_last env hne, progressV2_last env ws⟩
  · rw [resultTrace_runV1]
    apply List.map_congr_left
    intro f _
    rw [hio]
  · rw [resultTrace_runV2]
    apply List.map_congr_left
    intro f _
    rw [hio]

/-- Witness for the amended C1 at a concrete failing environment and
worklist. -/
theorem claim1_witness :
    cEnvBad.mkdirOk = false ∧ ([["a.png"], ["b.png"]] : List FsPath) ≠ [] ∧
    (resultTrace (runV1 cEnvBad [["a.png"], ["b.png"]])
       = [["a.png"], ["b.png"]].map (fun f => (f, Except.error "mkdir failed")) ∧
     resultTrace (runV2 cEnvBad [["a.png"], ["b.png"]])
       = [["a.png"], ["b.png"]].map (fun f => (f, Except.error "mkdir failed")) ∧
     (progressTrace (runV1 cEnvBad [["a.png"], ["b.png"]])).getLast? = some 1 ∧
     (progressTrace (runV2 cEnvBad [["a.png"], ["b.png"]])).getLast? = some 1) :=
  ⟨rfl, by decide, claim1_amended cEnvBad [["a.png"], ["b.png"]] rfl (by decide)⟩

/-- Claim C2, as stated, is false for version 2: on a one-item run the
progress observer is invoked three times, `[0, 1, 1]` — not exactly `N = 1`
times, and not with strictly increasing values. -/
theorem claim2_cex :
    progressTrace (runV2 cEnvOk [["a.png"]]) = [0, 1, 1] ∧
    (progressTrace (runV2 cEnvOk [["a.png"]])).length ≠ 1 ∧
    ¬ List.Pairwise (· < ·) (progressTrace (runV2 cEnvOk [["a.png"]])) := by
  have h : progressTrace (runV2 cEnvOk [["a.png"]]) = [0, 1, 1] := by
    norm_num [progressTrace, runV2, runEvents, itemOut, process_image,
      cEnvOk, List.filterMap]
  refine ⟨h, by rw [h]; simp, by rw [h]; norm_num [List.pairwise_cons]⟩

/-- Claim C2, amended: after a run over a non-empty worklist of size `N`,
the per-item result observer has been invoked exactly `N` times in the
input order, and the *in-loop* progress values are exactly
`(i+1)/N` for `i = 0..N-1` — strictly increasing and ending at exactly 1;
however the progress observer is additionally invoked with value 0 before
the first item (both versions) and once more with value 1 after the last
item (version 2), for `N + 1` resp. `N + 2` total invocations. -/
theorem claim2_amended (env : Env) (ws : List FsPath) (hne : ws ≠ []) :
    progressTrace (runV1 env ws) = 0 :: inLoopProg ws.length ∧
    progressTrace (runV2 env ws) = (0 :: inLoopProg ws.length) ++ [1] ∧
    List.Pairwise (· < ·) (inLoopProg ws.length) ∧
    (inLoopProg ws.length).getLast? = some 1 ∧
    (inLoopProg ws.length).length = ws.length ∧
    resultTrace (runV1 env ws) = ws.map (fun f => (f, itemOut env false f)) ∧
    resultTrace (runV2 env ws) = ws.map (fun f => (f, itemOut env true f)) := by
  have hn : ws.length ≠ 0 := fun h => hne (List.length_eq_zero.mp h)
  exact ⟨progressTrace_runV1 env ws, progressTrace_runV2 env ws,
    pairwise_inLoopProg _, getLast_inLoopProg hn, by simp [inLoopProg],
    resultTrace_runV1 env ws, resultTrace_runV2 env ws⟩

/-- Witness for the amended C2 at a concrete two-item run. -/
theorem claim2_witness :
    ([["a.png"], ["b.png"]] : List FsPath) ≠ [] ∧
    (progressTrace (runV1 cEnvOk [["a.png"], ["b.png"]])
       = 0 :: inLoopProg ([["a.png"], ["b.png"]] : List FsPath).length ∧
     progressTrace (runV2 cEnvOk [["a.png"], ["b.png"]])
       = (0 :: inLoopProg ([["a.png"], ["b.png"]] : List FsPath).length) ++ [1] ∧
     List.Pairwise (· < ·) (inLoopProg ([["a.png"], ["b.png"]] : List FsPath).length) ∧
     (inLoopProg ([["a.png"], ["b.png"]] : List FsPath).length).getLast? = some 1 ∧
     (inLoopProg ([["a.png"], ["b.png"]] : List FsPath).length).length
       = ([["a.png"], ["b.png"]] : List FsPath).length ∧
     resultTrace (runV1 cEnvOk [["a.png"], ["b.png"]])
       = [["a.png"], ["b.png"]].map (fun f => (f, itemOut cEnvOk false f)) ∧
     resultTrace (runV2 cEnvOk [["a.png"], ["b.png"]])
       = [["a.png"], ["b.png"]].map (fun f => (f, itemOut cEnvOk true f))) :=
  ⟨by decide, claim2_amended cEnvOk [["a.png"], ["b.png"]] (by decide)⟩

/-- Claim C3, confirmed: for every environment and worklist, each item
yields exactly one result event, in input order, with a failing transform
recorded as that item's failure (the run is never aborted by a per-item
error), and on a non-empty worklist the final progress value is exactly 1,
in both versions. -/
theorem claim3_thm (env : Env) (ws : List FsPath) (hne : ws ≠ []) :
    resultTrace (runV1 env ws) = ws.map (fun f => (f, itemOut env false f)) ∧
    resultTrace (runV2 env ws) = ws.map (fun f => (f, itemOut env true f)) ∧
    (progressTrace (runV1 env ws)).getLast? = some 1 ∧
    (progressTrace (runV2 env ws)).getLast? = some 1 :=
  ⟨resultTrace_runV1 env ws, resultTrace_runV2 env ws,
   progressV1_last env hne, progressV2_last env ws⟩

/-- Witness for C3: the spec's scenario — three items, the second raises —
still yields a result per item and progress 1. -/
theorem claim3_witness :
    cWs3 ≠ [] ∧ itemOut cEnvMid false ["b.png"] = .error "decode error" ∧
    (resultTrace (runV1 cEnvMid cWs3)
       = cWs3.map (fun f => (f, itemOut cEnvMid false f)) ∧
     resultTrace (runV2 cEnvMid cWs3)
       = cWs3.map (fun f => (f, itemOut cEnvMid true f)) ∧
     (progressTrace (runV1 cEnvMid cWs3)).getLast? = some 1 ∧
     (progressTrace (runV2 cEnvMid cWs3)).getLast? = some 1) :=
  ⟨by decide, rfl, claim3_thm cEnvMid cWs3 (by decide)⟩

/-- Claim C4, as stated, is false: `iter_images_in_dir` applies no
`is_file` check, so a *subdirectory* whose name has a supported extension
is included in the worklist.  Concretely, a directory containing only an
empty subdirectory `d.png` yields `[d.png]`, while the spec's
regular-files-only collection yields `[]`. -/
theorem claim4_cex :
    iter_images_in_dir [] cexTree ≠ specCollectFromFolder [] cexTree ∧
    iter_images_in_dir [] cexTree = [["d.png"]] ∧
    specCollectFromFolder [] cexTree = [] :=
  ⟨by decide, by decide, by decide⟩

/-- Claim C4, amended: `collect_from_folder` yields exactly the entries —
regular files *and* directories alike — found by the recursive traversal
whose lower-cased extension is in the supported set, in traversal order;
extension-non-matching entries are skipped.  The spec's own example (which
contains no extension-named directory) is reproduced exactly. -/
theorem claim4_amended (pre : FsPath) (cs : List Entry) :
    iter_images_in_dir pre cs = extMatchedEntries pre cs ∧
    iter_images_in_dir [] exampleTree
      = [["a.png"], ["c.JPG"], ["sub", "d.webp"]] :=
  ⟨iter_eq_extMatched pre cs, by decide⟩

/-- Claim C5, confirmed: when the non-transparent pixels fill exactly a
rectangle `R` strictly smaller than the canvas, the written image's
dimensions are `R`'s with the crop policy (version 2) and the canvas's
without it (version 1); and a fully transparent image is written uncropped
even under the crop policy. -/
theorem claim5_thm (im im2 : Img) (R : BBox)
    (hocc : occupiesRect im R)
    (_hsmall : R.r - R.l < im.w ∨ R.b - R.t < im.h)
    (htr : ∀ x < im2.w, ∀ y < im2.h, im2.alpha x y = 0) :
    imgDims (pipelineOut true im) = (R.r - R.l, R.b - R.t) ∧
    imgDims (pipelineOut false im) = (im.w, im.h) ∧
    pipelineOut true im2 = im2 := by
  refine ⟨?_, rfl, ?_⟩
  · show imgDims (match getbbox im with
      | some bb => cropImg im bb
      | none => im) = _
    rw [getbbox_of_occupies hocc]
    rfl
  · show (match getbbox im2 with
      | some bb => cropImg im2 bb
      | none => im2) = im2
    rw [getbbox_of_transparent htr]

/-- Witness for C5 at a 3×3 image with one opaque centre pixel and a 2×2
fully transparent image. -/
theorem claim5_witness :
    occupiesRect cIm cR ∧ (cR.r - cR.l < cIm.w ∨ cR.b - cR.t < cIm.h) ∧
    (∀ x < cIm0.w, ∀ y < cIm0.h, cIm0.alpha x y = 0) ∧
    (imgDims (pipelineOut true cIm) = (cR.r - cR.l, cR.b - cR.t) ∧
     imgDims (pipelineOut false cIm) = (cIm.w, cIm.h) ∧
     pipelineOut true cIm0 = cIm0) :=
  ⟨by decide, by decide, by decide,
   claim5_thm cIm cIm0 cR (by decide) (by decide) (by decide)⟩

/-- Claim C6, confirmed: the output file name is the input's base name
(stem) plus `_nobg` plus `.png`, independent of the input extension and its
casing; the output is written under that name into the output directory,
overwriting any pre-existing file of the same name. -/
theorem claim6_thm (base ext : String) (hb : base.data ≠ [])
    (he : ext.data ≠ []) (hdot : '.' ∉ ext.data)
    (env : Env) (crop : Bool) (ws : List FsPath) (q : FsPath)
    (nm : String) (img : Img)
    (hq : process_image env crop q = .ok (nm, img)) :
    pyStem (base ++ "." ++ ext) = base ∧
    outputNameOfName (base ++ "." ++ ext) = base ++ "_nobg.png" ∧
    List.lookup nm (runDir env crop (ws ++ [q])) = some img := by
  have hstem := pyStem_base_ext base ext hb he hdot
  exact ⟨hstem, by rw [outputNameOfName, hstem],
    runDir_append_ok env crop ws hq⟩

/-- Witness for C6: `photo.JPEG` maps to `photo_nobg.png`, and saving over
an existing `photo_nobg.png` (produced here by `photo.jpg`) replaces it. -/
theorem claim6_witness :
    ("photo" : String).data ≠ [] ∧ ("JPEG" : String).data ≠ [] ∧
    '.' ∉ ("JPEG" : String).data ∧
    process_image cEnvOk false ["photo.JPEG"] = .ok ("photo_nobg.png", cIm) ∧
    (pyStem ("photo" ++ "." ++ "JPEG") = "photo" ∧
     outputNameOfName ("photo" ++ "." ++ "JPEG") = "photo" ++ "_nobg.png" ∧
     List.lookup "photo_nobg.png"
       (runDir cEnvOk false ([["photo.jpg"]] ++ [["photo.JPEG"]])) = some cIm) :=
  ⟨by decide, by decide, by decide, rfl,
   claim6_thm "photo" "JPEG" (by decide) (by decide) (by decide)
     cEnvOk false [["photo.jpg"]] ["photo.JPEG"] "photo_nobg.png" cIm rfl⟩

/-- Claim C7, confirmed: the drop collector processes entries in payload
order — a supported file is included, a directory is expanded exactly as
the folder collector, anything else contributes nothing — and the result
is the concatenation of the per-entry expansions. -/
theorem claim7_thm (items : List DropItem) :
    on_drop_collect items = items.bind expandDropItem ∧
    (∀ p, expandDropItem (.file p)
        = if supportedName (lastName p) then [p] else []) ∧
    (∀ p cs, expandDropItem (.dir p cs) = iter_images_in_dir p cs) ∧
    (∀ p, expandDropItem (.broken p) = []) :=
  ⟨on_drop_eq_bind items, fun _ => rfl, fun _ _ => rfl, fun _ => rfl⟩

/-- Claim C8, as stated, is false: the collector does not deduplicate.  A
payload holding a file and a directory that contains that same file yields
the path twice. -/
theorem claim8_cex :
    ¬ (on_drop_collect
        [DropItem.file ["d", "a.png"],
         DropItem.dir ["d"] [.file "a.png"]]).Nodup := by
  decide

/-- Claim C8, amended: the worklist built from a drop payload is the plain
concatenation of the per-entry expansions with *no* deduplication — every
path occurs exactly as many times as the payload's entries contribute
it. -/
theorem claim8_amended (items : List DropItem) (p : FsPath) :
    (on_drop_collect items).count p
      = (items.map (fun it => (expandDropItem it).count p)).sum :=
  count_on_drop items p

/-- Claim C9, confirmed: a drop whose expansion is empty leaves the
previously selected worklist unchanged. -/
theorem claim9_thm (st : List FsPath) (items : List DropItem)
    (h : on_drop_collect items = []) : on_drop_state st items = st := by
  simp [on_drop_state, h]

/-- Witness for C9: a payload of a broken path and an unsupported file
expands to nothing and leaves the old selection in place. -/
theorem claim9_witness :
    on_drop_collect cItems9 = [] ∧ on_drop_state cSt cItems9 = cSt :=
  ⟨rfl, claim9_thm cSt cItems9 rfl⟩

/-- Claim C10, confirmed: two distinct successful inputs with equal stems
map to the same output name; the file finally stored under that name is
the later item's output, and the number of distinct output files is
strictly smaller than the number of successful items. -/
theorem claim10_thm (env : Env) (crop : Bool) (l₁ l₂ : List FsPath)
    (p q : FsPath) (np nq : String) (ip iq : Img)
    (_hne : p ≠ q) (hstem : pyStem (lastName p) = pyStem (lastName q))
    (hp : process_image env crop p = .ok (np, ip))
    (hq : process_image env crop q = .ok (nq, iq)) :
    np = nq ∧
    List.lookup nq (runDir env crop (l₁ ++ p :: (l₂ ++ [q]))) = some iq ∧
    (successOutputs env crop (l₁ ++ p :: (l₂ ++ [q]))).dedup.length
      < (successOutputs env crop (l₁ ++ p :: (l₂ ++ [q]))).length := by
  have hnp : np = outputName p := process_image_ok_name hp
  have hnq : nq = outputName q := process_image_ok_name hq
  have heq : np = nq := by
    rw [hnp, hnq]
    unfold outputName outputNameOfName
    rw [hstem]
  refine ⟨heq, ?_, ?_⟩
  · have hws : l₁ ++ p :: (l₂ ++ [q]) = (l₁ ++ p :: l₂) ++ [q] := by simp
    rw [hws]
    exact runDir_append_ok env crop _ hq
  · apply dedup_length_lt
    have hso : successOutputs env crop (l₁ ++ p :: (l₂ ++ [q]))
        = successOutputs env crop l₁
            ++ np :: (successOutputs env crop l₂ ++ [nq]) := by
      simp [successOutputs, List.filterMap_append, List.filterMap_cons, hp, hq]
    rw [hso]
    intro hn
    have hn2 := hn.of_append_right
    rw [List.nodup_cons] at hn2
    apply hn2.1
    rw [heq]
    exact List.mem_append_right _ (List.mem_singleton.mpr rfl)

/-- Witness for C10: `a.jpg` and `a.png` both map to `a_nobg.png`; after
both succeed the directory holds the later item's output and one file for
two successes. -/
theorem claim10_witness :
    (["a.jpg"] : FsPath) ≠ ["a.png"] ∧
    pyStem (lastName ["a.jpg"]) = pyStem (lastName ["a.png"]) ∧
    process_image cEnvOk false ["a.jpg"] = .ok ("a_nobg.png", cIm) ∧
    process_image cEnvOk false ["a.png"] = .ok ("a_nobg.png", cIm) ∧
    ("a_nobg.png" = "a_nobg.png" ∧
     List.lookup "a_nobg.png"
       (runDir cEnvOk false ([] ++ ["a.jpg"] :: ([] ++ [["a.png"]])))
       = some cIm ∧
     (successOutputs cEnvOk false
        ([] ++ ["a.jpg"] :: ([] ++ [["a.png"]]))).dedup.length
       < (successOutputs cEnvOk false
            ([] ++ ["a.jpg"] :: ([] ++ [["a.png"]]))).length) :=
  ⟨by decide, by decide, rfl, rfl,
   claim10_thm cEnvOk false [] [] ["a.jpg"] ["a.png"]
     "a_nobg.png" "a_nobg.png" cIm cIm (by decide) (by decide) rfl rfl⟩

end NoBack
